import Mathlib

/-!
Verification development for the repackaging pipeline of
`netfree_patcher.py` (netfree-apk-editor).

The manifest transformation of `PatcherThread.run` (the regex search
`re.search(r"<application.*?>", content, re.DOTALL)`, the substring
checks with Python's `in`, and `str.replace`) is embedded over
`List Char`.  The staged pipeline (`PatcherThread.run`) and the
delegated deep-edit path (`DeepEditThread.run`) are embedded as
trace-producing functions over an abstract world describing the
filesystem and the outcomes of the external tools.
-/

namespace Netfree

/-- Prefix test on character lists, the semantics of Python's
`str.startswith` used implicitly by `in`, `replace` and the regex
literal match. -/
def isPre : List Char → List Char → Bool
  | [], _ => true
  | _ :: _, [] => false
  | a :: as, b :: bs => if a = b then isPre as bs else false

/-- Python's substring test `pat in s`. -/
def containsSub (pat : List Char) : List Char → Bool
  | [] => pat.isEmpty
  | c :: rest => isPre pat (c :: rest) || containsSub pat rest

/-- Number of positions of `s` at which `pat` occurs (all starting
positions, used to state "exactly one occurrence of the attribute"). -/
def countOccs (pat : List Char) : List Char → Nat
  | [] => 0
  | c :: rest => (if isPre pat (c :: rest) then 1 else 0) + countOccs pat rest

/-- Python `s.replace(pat, repl, 1)`: replace the leftmost occurrence of
`pat` (only) and keep the remainder unchanged. -/
def replaceOnce (pat repl : List Char) : List Char → List Char
  | [] => []
  | c :: rest =>
    if isPre pat (c :: rest) then repl ++ (c :: rest).drop pat.length
    else c :: replaceOnce pat repl rest

/-- Fuel-driven worker for `replaceAll`; the fuel is only a structural
termination device, `replaceAll` always supplies enough. -/
def replaceAllAux (pat repl : List Char) : Nat → List Char → List Char
  | _, [] => []
  | 0, s => s
  | fuel + 1, c :: rest =>
    if isPre pat (c :: rest) then
      repl ++ replaceAllAux pat repl fuel ((c :: rest).drop pat.length)
    else c :: replaceAllAux pat repl fuel rest

/-- Python `s.replace(pat, repl)` (no count): replace every leftmost
non-overlapping occurrence of `pat`.  This is the call on line 165 of
the source, `content.replace(app_tag, modified_tag)`. -/
def replaceAll (pat repl s : List Char) : List Char :=
  replaceAllAux pat repl s.length s

/-- Shortest prefix of the input ending at the first `'>'`, inclusive;
`none` when no `'>'` occurs.  This is the non-greedy `.*?>` part of the
regex `<application.*?>` under `re.DOTALL`. -/
def takeUpToGt : List Char → Option (List Char)
  | [] => none
  | c :: rest => if c = '>' then some ['>'] else (takeUpToGt rest).map (c :: ·)

/-- Literal `"<application"` of the regex. -/
def appLit : List Char := "<application".data

/-- Attribute name checked with Python `in` on line 161. -/
def nsName : List Char := "android:networkSecurityConfig".data

/-- Replacement text for `">"` on line 162. -/
def nsRepl : List Char :=
  " android:networkSecurityConfig=\"@xml/network_security_config\">".data

/-- Attribute name checked with Python `in` on line 163. -/
def dbgName : List Char := "android:debuggable".data

/-- Replacement text for `">"` on line 164. -/
def dbgRepl : List Char := " android:debuggable=\"true\">".data

/-- Body of `nsRepl` without the closing `'>'`. -/
def nsAttr : List Char :=
  " android:networkSecurityConfig=\"@xml/network_security_config\"".data

/-- Body of `dbgRepl` without the closing `'>'`. -/
def dbgAttr : List Char := " android:debuggable=\"true\"".data

/-- Match of the regex `<application.*?>` anchored at the head of the
input: the literal must be a prefix and the match extends minimally to
the first `'>'`. -/
def matchAppAt (s : List Char) : Option (List Char) :=
  if isPre appLit s then (takeUpToGt (s.drop appLit.length)).map (appLit ++ ·)
  else none

/-- `re.search(r"<application.*?>", content, re.DOTALL)`: leftmost
position admitting a match, shortest match there. -/
def firstAppTag : List Char → Option (List Char)
  | [] => none
  | c :: rest =>
    match matchAppAt (c :: rest) with
    | some t => some t
    | none => firstAppTag rest

/-- Construction of `modified_tag` from `app_tag` (source lines 160-164):
append the network-security attribute before the first `'>'` when the
tag lacks it, then the debuggable attribute when requested and absent. -/
def modTag (makeDebuggable : Bool) (appTag : List Char) : List Char :=
  let m1 := if containsSub nsName appTag then appTag
            else replaceOnce ['>'] nsRepl appTag
  if makeDebuggable && ! containsSub dbgName appTag then
    replaceOnce ['>'] dbgRepl m1
  else m1

/-- The manifest transformation of source lines 157-165: locate the
first `<application.*?>` match (`none` models the raised
`RuntimeError` for a missing root element), build `modified_tag`, and
apply `content.replace(app_tag, modified_tag)` — Python's replace-all. -/
def patchManifest (makeDebuggable : Bool) (content : List Char) :
    Option (List Char) :=
  match firstAppTag content with
  | none => none
  | some appTag => some (replaceAll appTag (modTag makeDebuggable appTag) content)

/-! Staged pipeline model (`PatcherThread`). -/

/-- Tags of the log lines the staged pipeline emits through
`log_message`; the payloads of the Hebrew messages are abstracted to
their role.  `stage7` is the cleanup message logged in the `finally`
block.  The stdout/stderr echoes of `run_command` are not modelled. -/
inductive LogTag where
  | keystoreCreate
  | keystoreReuse
  | stage1
  | stage2
  | stage3
  | stage4
  | stage5
  | stage6
  | stage7
  | errorNote
  deriving BEq, DecidableEq, Repr

/-- External tool invocations performed via `run_command`, with the
arguments the claims inspect (the signing identity). -/
inductive Cmd where
  | keytool (ksAlias ksPass : String)
  | apktoolD
  | apktoolB
  | zipalign
  | apksigner (ksAlias ksPass : String)
  deriving BEq, DecidableEq, Repr

/-- Events observable by the caller of a staged run: `progress_updated`,
`log_message`, the start of an external process, and an emission of the
`process_finished` signal.  `argc` records how many arguments the code
passes to `process_finished.emit` (the signal is declared on line 64
with three: `pyqtSignal(bool, str, str)`). -/
inductive PEvent where
  | progress (v : Nat)
  | log (t : LogTag)
  | cmd (c : Cmd)
  | finished (ok : Bool) (argc : Nat)
  deriving DecidableEq, Repr

/-- Number of parameters of the declared staged terminal signal
`process_finished = pyqtSignal(bool, str, str)` (source line 64):
success flag, message, output path. -/
def patcherFinishedSigArity : Nat := 3

/-- Errors raised inside the `try` block of `PatcherThread.run`. -/
inductive PatchError where
  | keystoreNotFound
  | toolFailed (c : Cmd)
  | copySourceMissing
  | manifestMissing
  | missingRootElement
  deriving BEq, DecidableEq, Repr

/-- Terminal state of a staged run. -/
inductive Outcome where
  | success
  | failure (e : PatchError)
  deriving BEq, DecidableEq, Repr

/-- Caller-supplied options of `PatcherThread.__init__`: the keystore
path (empty means the default autogenerated one), alias, password, and
the debuggable flag. -/
structure Config where
  keystorePath : String
  keyAlias : String
  keyPass : String
  makeDebuggable : Bool
  deriving DecidableEq, Repr

/-- `self.is_custom_keystore` (source lines 73-78): a non-empty
keystore path is user-supplied. -/
def isCustomKeystore (c : Config) : Bool := c.keystorePath != ""

/-- `self.key_alias = key_alias or "androiddebugkey"` (line 80). -/
def resolvedAlias (c : Config) : String :=
  if c.keyAlias = "" then "androiddebugkey" else c.keyAlias

/-- `self.key_pass = key_pass or "android"` (line 81). -/
def resolvedPass (c : Config) : String :=
  if c.keyPass = "" then "android" else c.keyPass

/-- Abstract environment for one staged run: which files pre-exist,
whether each external tool invocation succeeds, and the manifest
content the decompiler produces (`none` models a tree without an
`AndroidManifest.xml`). -/
structure World where
  keystoreExists : Bool
  keytoolOk : Bool
  apktoolDOk : Bool
  decompiledManifest : Option (List Char)
  configAssetOk : Bool
  apktoolBOk : Bool
  zipalignOk : Bool
  apksignerOk : Bool
  tmpDirPre : Bool
  tempApkPre : Bool

/-- Filesystem ghost state tracked through a staged run.  `manifest`
records the content of `AndroidManifest.xml` of the decompiled tree as
last read or written (it is kept for specification purposes even after
the tree is removed by cleanup). -/
structure FS where
  keystore : Bool
  tmpDir : Bool
  tempApk : Bool
  finalApk : Bool
  manifest : Option (List Char)

/-- Result type of the `try` block: emitted events, filesystem state,
and the raised error when one escapes the block. -/
abbrev StepResult := List PEvent × FS × Option PatchError

/-- `int((current_step / total_steps) * 100)` with `total_steps = 7`
(source lines 111-116); for steps one to seven the float computation
agrees with natural truncated division. -/
def progressAt (step : Nat) : Nat := step * 100 / 7

/-- Stages one to six of `PatcherThread.run` (source lines 142-180),
entered after the signing identity was resolved: decompile, inject the
network-security config, patch the manifest, rebuild, align, sign.
Each stage appends its events and either runs on or raises. -/
def pipelineFromDecompile (c : Config) (w : World) (e : List PEvent) (fs : FS) :
    StepResult :=
  let e2 := e ++ [.progress (progressAt 1), .log .stage1]
  let fs2 := { fs with tmpDir := false }
  if ! w.apktoolDOk then
    (e2 ++ [.cmd .apktoolD], fs2, some (.toolFailed .apktoolD))
  else
    let fs3 := { fs2 with tmpDir := true, manifest := w.decompiledManifest }
    let e3 := e2 ++ [.cmd .apktoolD, .progress (progressAt 2), .log .stage2]
    if ! w.configAssetOk then
      (e3, fs3, some .copySourceMissing)
    else
      let e4 := e3 ++ [.progress (progressAt 3), .log .stage3]
      match fs3.manifest with
      | none => (e4, fs3, some .manifestMissing)
      | some content =>
        match patchManifest c.makeDebuggable content with
        | none => (e4, fs3, some .missingRootElement)
        | some newContent =>
          let fs4 := { fs3 with manifest := some newContent }
          let e5 := e4 ++ [.progress (progressAt 4), .log .stage4]
          if ! w.apktoolBOk then
            (e5 ++ [.cmd .apktoolB], fs4, some (.toolFailed .apktoolB))
          else
            let fs5 := { fs4 with tempApk := true }
            let e6 := e5 ++ [.cmd .apktoolB, .progress (progressAt 5), .log .stage5]
            if ! w.zipalignOk then
              (e6 ++ [.cmd .zipalign], fs5, some (.toolFailed .zipalign))
            else
              let fs6 := { fs5 with finalApk := true }
              let e7 := e6 ++ [.cmd .zipalign, .progress (progressAt 6), .log .stage6]
              if ! w.apksignerOk then
                (e7 ++ [.cmd (.apksigner (resolvedAlias c) (resolvedPass c))], fs6,
                 some (.toolFailed (.apksigner (resolvedAlias c) (resolvedPass c))))
              else
                (e7 ++ [.cmd (.apksigner (resolvedAlias c) (resolvedPass c)),
                        .progress (progressAt 7)], fs6, none)

/-- The `try` block of `PatcherThread.run` (source lines 124-182):
initial progress, signing-identity resolution (raise for a missing
user-supplied keystore, generation for a missing default one), then the
staged pipeline. -/
def tryBody (c : Config) (w : World) : StepResult :=
  let fs0 : FS := { keystore := w.keystoreExists, tmpDir := w.tmpDirPre,
                    tempApk := w.tempApkPre, finalApk := false, manifest := none }
  let e0 : List PEvent := [.progress 0]
  if isCustomKeystore c && ! w.keystoreExists then
    (e0, fs0, some .keystoreNotFound)
  else if ! w.keystoreExists then
    if w.keytoolOk then
      pipelineFromDecompile c w
        (e0 ++ [.log .keystoreCreate, .cmd (.keytool (resolvedAlias c) (resolvedPass c))])
        { fs0 with keystore := true }
    else
      (e0 ++ [.log .keystoreCreate, .cmd (.keytool (resolvedAlias c) (resolvedPass c))],
       fs0, some (.toolFailed (.keytool (resolvedAlias c) (resolvedPass c))))
  else
    pipelineFromDecompile c w (e0 ++ [.log .keystoreReuse]) fs0

/-- Result of an entire staged run. -/
structure RunResult where
  trace : List PEvent
  fs : FS
  outcome : Outcome

/-- `PatcherThread.run` end to end: the `try` block, then the `except`
handler (error log plus terminal emission) or the in-`try` success
emission, then the unconditional `finally` block (cleanup log, removal
of the temporary apk and of the workspace directory).  Both terminal
emissions pass two arguments (source lines 182 and 186). -/
def runPatcher (c : Config) (w : World) : RunResult :=
  let r := tryBody c w
  let evs :=
    match r.2.2 with
    | none => r.1 ++ [.finished true 2]
    | some _ => r.1 ++ [.log .errorNote, .finished false 2]
  { trace := evs ++ [.log .stage7],
    fs := { r.2.1 with tempApk := false, tmpDir := false },
    outcome := match r.2.2 with | none => .success | some e => .failure e }

/-- Progress values of a trace, in emission order. -/
def progressOf (tr : List PEvent) : List Nat :=
  tr.filterMap fun e => match e with | .progress v => some v | _ => none

/-- Terminal emissions of a trace: success flag and argument count. -/
def finishedOf (tr : List PEvent) : List (Bool × Nat) :=
  tr.filterMap fun e => match e with | .finished ok n => some (ok, n) | _ => none

/-- Boolean check that a list of naturals is non-decreasing. -/
def nonDecr : List Nat → Bool
  | [] => true
  | [_] => true
  | a :: b :: t => a ≤ b && nonDecr (b :: t)

/-- Scanning the trace, `isA` fires before any event satisfying `isB`
(vacuously true when no `isB` event occurs). -/
def seenBeforeAll (isA isB : PEvent → Bool) : List PEvent → Bool
  | [] => true
  | e :: rest => if isA e then true else if isB e then false else seenBeforeAll isA isB rest

/-- Recogniser for a progress event with a given value. -/
def isProgressV (v : Nat) : PEvent → Bool
  | .progress u => u == v
  | _ => false

/-- Recogniser for a log event with a given tag. -/
def isLogT (t : LogTag) : PEvent → Bool
  | .log u => u == t
  | _ => false

/-- Recogniser for the decompile invocation. -/
def isApktoolD : PEvent → Bool
  | .cmd .apktoolD => true
  | _ => false

/-- Recogniser for the rebuild invocation. -/
def isApktoolB : PEvent → Bool
  | .cmd .apktoolB => true
  | _ => false

/-- Recogniser for the align invocation. -/
def isZipalign : PEvent → Bool
  | .cmd .zipalign => true
  | _ => false

/-- Recogniser for the sign invocation. -/
def isApksigner : PEvent → Bool
  | .cmd (.apksigner _ _) => true
  | _ => false

/-- Stage-interleaving discipline of one staged trace: the progress
value completing step `k` is emitted before the log line announcing the
next stage, and each tool invocation precedes the progress value that
reports its completion. -/
def stageOrderOk (tr : List PEvent) : Bool :=
  seenBeforeAll (isProgressV (progressAt 1)) (isLogT .stage1) tr &&
  seenBeforeAll (isProgressV (progressAt 2)) (isLogT .stage2) tr &&
  seenBeforeAll (isProgressV (progressAt 3)) (isLogT .stage3) tr &&
  seenBeforeAll (isProgressV (progressAt 4)) (isLogT .stage4) tr &&
  seenBeforeAll (isProgressV (progressAt 5)) (isLogT .stage5) tr &&
  seenBeforeAll (isProgressV (progressAt 6)) (isLogT .stage6) tr &&
  seenBeforeAll isApktoolD (isProgressV (progressAt 2)) tr &&
  seenBeforeAll isApktoolB (isProgressV (progressAt 5)) tr &&
  seenBeforeAll isZipalign (isProgressV (progressAt 6)) tr &&
  seenBeforeAll isApksigner (isProgressV (progressAt 7)) tr

/-! Deep-edit model (`DeepEditThread`). -/

/-- Log lines of the deep-edit path, payloads abstracted to their role
except for the streamed tool output, which is carried verbatim. -/
inductive DeepLine where
  | banner
  | cmdEcho
  | toolOut (s : String)
  | doneNote
  | exitNote
  | excNote
  deriving BEq, DecidableEq, Repr

/-- Events of a deep-edit run: log lines, the launch of the external
process (program path and argument), and the `process_finished`
emission, which on this path always passes all three declared
arguments; the carried path is the third. -/
inductive DEvent where
  | log (l : DeepLine)
  | launch (prog : String) (arg : String)
  | finished (ok : Bool) (path : String)
  deriving BEq, DecidableEq, Repr

/-- Abstract environment of one deep-edit run. -/
structure DeepWorld where
  exeExists : Bool
  outLines : List String
  exitCode : Int
  outputExists : Bool
  scriptDir : String
  apkDir : String
  apkStem : String
  apkPath : String

/-- ASCII whitespace recognised by Python's `str.strip`. -/
def isPySpace (c : Char) : Bool :=
  c = ' ' || c = '\t' || c = '\n' || c = '\x0d' || c = '\x0b' || c = '\x0c'

/-- Python `line.strip()` applied to each streamed line (line 243). -/
def pyStrip (s : String) : String :=
  String.mk (((s.data.dropWhile isPySpace).reverse.dropWhile isPySpace).reverse)

/-- `self.script_dir / "apk-mitm.exe"` (line 210): the external tool is
resolved at a fixed path inside the program's own directory. -/
def deepToolPath (w : DeepWorld) : String := w.scriptDir ++ "/apk-mitm.exe"

/-- `self.apk_file.parent / f"{self.apk_file.stem}-patched.apk"`
(line 212). -/
def deepOutPath (w : DeepWorld) : String :=
  w.apkDir ++ "/" ++ w.apkStem ++ "-patched.apk"

/-- `DeepEditThread.run` (source lines 208-263): existence check of the
bundled tool, launch, line-by-line streaming of its output, then the
terminal decided by `return_code == 0 and final_apk_path.exists()`;
every failure emits an empty path. -/
def runDeepEdit (w : DeepWorld) : List DEvent :=
  if ! w.exeExists then
    [.log .excNote, .finished false ""]
  else
    let pre : List DEvent := [.log .banner, .log .cmdEcho,
                              .launch (deepToolPath w) w.apkPath]
    let outs := w.outLines.map fun s => DEvent.log (.toolOut (pyStrip s))
    if w.exitCode == 0 && w.outputExists then
      pre ++ outs ++ [.log .doneNote, .finished true (deepOutPath w)]
    else
      pre ++ outs ++ [.log .exitNote, .finished false ""]

/-- Terminal emissions of a deep-edit trace. -/
def deepTerminals (tr : List DEvent) : List (Bool × String) :=
  tr.filterMap fun e => match e with | .finished ok p => some (ok, p) | _ => none

/-- Launch events of a deep-edit trace. -/
def deepLaunches (tr : List DEvent) : List (String × String) :=
  tr.filterMap fun e => match e with | .launch p a => some (p, a) | _ => none

/-! Concrete instances used by witnesses and the counterexamples. -/

/-- Default options: no custom keystore, empty alias and password, no
debuggable flag. -/
def cfgEx : Config := { keystorePath := "", keyAlias := "", keyPass := "",
                        makeDebuggable := false }

/-- Options with a user-supplied keystore path. -/
def cfgCustom : Config := { keystorePath := "/keys/my.keystore", keyAlias := "",
                            keyPass := "", makeDebuggable := false }

/-- World where every tool succeeds and the decompiled manifest holds a
bare application tag. -/
def wAllOk : World :=
  { keystoreExists := true, keytoolOk := true, apktoolDOk := true,
    decompiledManifest := some "<application>".data, configAssetOk := true,
    apktoolBOk := true, zipalignOk := true, apksignerOk := true,
    tmpDirPre := false, tempApkPre := false }

/-- World like `wAllOk` whose keystore file is absent. -/
def wNoKeystore : World :=
  { keystoreExists := false, keytoolOk := true, apktoolDOk := true,
    decompiledManifest := some "<application>".data, configAssetOk := true,
    apktoolBOk := true, zipalignOk := true, apksignerOk := true,
    tmpDirPre := true, tempApkPre := true }

/-- World like `wAllOk` whose decompiled manifest has no application
tag. -/
def wNoRoot : World :=
  { keystoreExists := true, keytoolOk := true, apktoolDOk := true,
    decompiledManifest := some "no tag here".data, configAssetOk := true,
    apktoolBOk := true, zipalignOk := true, apksignerOk := true,
    tmpDirPre := false, tempApkPre := false }

/-- Deep-edit world whose tool streams two lines, exits non-zero and
produces no artifact. -/
def dwFail : DeepWorld :=
  { exeExists := true, outLines := ["line one ", " line two"], exitCode := 1,
    outputExists := false, scriptDir := "/opt/app", apkDir := "/home/u",
    apkStem := "game", apkPath := "/home/u/game.apk" }

/-- Deep-edit world whose bundled tool is missing. -/
def dwNoExe : DeepWorld :=
  { exeExists := false, outLines := [], exitCode := 0, outputExists := true,
    scriptDir := "/opt/app", apkDir := "/home/u", apkStem := "game",
    apkPath := "/home/u/game.apk" }

/-! Basic lemmas about the string primitives. -/

theorem isPre_iff (p : List Char) : ∀ s, isPre p s = true ↔ ∃ r, s = p ++ r := by
  induction p with
  | nil => intro s; simp [isPre]
  | cons a as ih =>
    intro s
    cases s with
    | nil => simp [isPre]
    | cons b bs =>
      show (if a = b then isPre as bs else false) = true ↔ _
      by_cases hab : a = b
      · subst hab
        rw [if_pos rfl, ih bs]
        constructor
        · rintro ⟨r, rfl⟩; exact ⟨r, rfl⟩
        · rintro ⟨r, hr⟩
          injection hr with _ h2
          exact ⟨r, h2⟩
      · rw [if_neg hab]
        constructor
        · intro h; exact absurd h (by simp)
        · rintro ⟨r, hr⟩
          injection hr with h1 _
          exact absurd h1.symm hab

theorem isPre_append_self (p r : List Char) : isPre p (p ++ r) = true :=
  (isPre_iff p (p ++ r)).mpr ⟨r, rfl⟩

theorem isPre_nil_false (p : List Char) (hp : p ≠ []) : isPre p [] = false := by
  cases p with
  | nil => exact absurd rfl hp
  | cons a as => rfl

theorem isPre_length_le (p s : List Char) (h : isPre p s = true) :
    p.length ≤ s.length := by
  obtain ⟨r, rfl⟩ := (isPre_iff p s).mp h
  simp

theorem isPre_split (p : List Char) (y₀ : Char) (h : y₀ ∉ p) :
    ∀ xs ys, isPre p (xs ++ y₀ :: ys) = isPre p xs := by
  induction p with
  | nil => intro xs ys; rfl
  | cons a as ih =>
    intro xs ys
    cases xs with
    | nil =>
      have hay : ¬ a = y₀ := fun hh => h (by simp [hh])
      show (if a = y₀ then isPre as ys else false) = false
      rw [if_neg hay]
    | cons x xs' =>
      show (if a = x then isPre as (xs' ++ y₀ :: ys) else false) =
        (if a = x then isPre as xs' else false)
      by_cases hax : a = x
      · rw [if_pos hax, if_pos hax, ih (fun hm => h (List.mem_cons_of_mem _ hm)) xs' ys]
      · rw [if_neg hax, if_neg hax]

theorem containsSub_nil_pat (l : List Char) : containsSub [] l = true := by
  cases l <;> rfl

theorem containsSub_split (p : List Char) (y₀ : Char) (h : y₀ ∉ p) :
    ∀ xs ys, containsSub p (xs ++ y₀ :: ys) =
      (containsSub p xs || containsSub p (y₀ :: ys)) := by
  intro xs ys
  induction xs with
  | nil =>
    cases p with
    | nil => simp [containsSub_nil_pat, containsSub]
    | cons a as => simp [containsSub]
  | cons x xs' ih =>
    show (isPre p ((x :: xs') ++ y₀ :: ys) || containsSub p (xs' ++ y₀ :: ys)) =
      ((isPre p (x :: xs') || containsSub p xs') || containsSub p (y₀ :: ys))
    rw [isPre_split p y₀ h (x :: xs') ys, ih, Bool.or_assoc]

theorem countOccs_split (p : List Char) (y₀ : Char) (h : y₀ ∉ p) :
    ∀ xs ys, countOccs p (xs ++ y₀ :: ys) =
      countOccs p xs + countOccs p (y₀ :: ys) := by
  intro xs ys
  induction xs with
  | nil =>
    show countOccs p (y₀ :: ys) = 0 + countOccs p (y₀ :: ys)
    rw [Nat.zero_add]
  | cons x xs' ih =>
    show ((if isPre p ((x :: xs') ++ y₀ :: ys) = true then 1 else 0) +
        countOccs p (xs' ++ y₀ :: ys)) =
      ((if isPre p (x :: xs') = true then 1 else 0) + countOccs p xs') +
        countOccs p (y₀ :: ys)
    rw [isPre_split p y₀ h (x :: xs') ys, ih, Nat.add_assoc]

theorem containsSub_append_left (p : List Char) :
    ∀ a b, containsSub p a = true → containsSub p (a ++ b) = true := by
  intro a
  induction a with
  | nil =>
    intro b h
    cases p with
    | nil => exact containsSub_nil_pat b
    | cons x xs => exact absurd h (by simp [containsSub])
  | cons x xs ih =>
    intro b h
    show (isPre p ((x :: xs) ++ b) || containsSub p (xs ++ b)) = true
    simp only [containsSub, Bool.or_eq_true] at h
    rcases h with h | h
    · obtain ⟨r, hr⟩ := (isPre_iff _ _).mp h
      have hx : isPre p ((x :: xs) ++ b) = true :=
        (isPre_iff _ _).mpr ⟨r ++ b, by rw [hr, List.append_assoc]⟩
      rw [hx, Bool.true_or]
    · rw [ih b h, Bool.or_true]

theorem containsSub_append_right (p : List Char) :
    ∀ a b, containsSub p b = true → containsSub p (a ++ b) = true := by
  intro a
  induction a with
  | nil => intro b h; exact h
  | cons x xs ih =>
    intro b h
    show (isPre p ((x :: xs) ++ b) || containsSub p (xs ++ b)) = true
    rw [ih b h, Bool.or_true]

theorem countOccs_zero_iff (p : List Char) (hp : p ≠ []) :
    ∀ l, countOccs p l = 0 ↔ containsSub p l = false := by
  intro l
  induction l with
  | nil =>
    cases p with
    | nil => exact absurd rfl hp
    | cons a as => simp [countOccs, containsSub]
  | cons c rest ih =>
    show ((if isPre p (c :: rest) = true then 1 else 0) + countOccs p rest = 0) ↔
      ((isPre p (c :: rest) || containsSub p rest) = false)
    by_cases hpre : isPre p (c :: rest) = true
    · simp [hpre]
    · simp only [Bool.not_eq_true] at hpre
      simp [hpre, ih]

theorem drop_len_append (a b : List Char) : (a ++ b).drop a.length = b := by
  induction a with
  | nil => rfl
  | cons x xs ih => exact ih

theorem drop_append_le (n : Nat) : ∀ (y z : List Char), n ≤ y.length →
    (y ++ z).drop n = y.drop n ++ z := by
  induction n with
  | zero => intro y z _; rfl
  | succ m ih =>
    intro y z h
    cases y with
    | nil => simp at h
    | cons a y' => simpa using ih y' z (by simpa using h)

theorem take_append_le (n : Nat) : ∀ (y z : List Char), n ≤ y.length →
    (y ++ z).take n = y.take n := by
  induction n with
  | zero => intro y z _; rfl
  | succ m ih =>
    intro y z h
    cases y with
    | nil => simp at h
    | cons a y' => simpa using ih y' z (by simpa using h)

theorem isPre_take (p : List Char) : ∀ s, isPre p s = isPre p (s.take p.length) := by
  induction p with
  | nil => intro s; rfl
  | cons a as ih =>
    intro s
    cases s with
    | nil => rfl
    | cons b bs =>
      simp only [List.length_cons, List.take_succ_cons, isPre]
      by_cases hab : a = b
      · rw [if_pos hab, if_pos hab, ih bs]
      · rw [if_neg hab, if_neg hab]

theorem isPre_stable (p d t₁ t₂ : List Char) (h : p.length ≤ d.length) :
    isPre p (d ++ t₁) = isPre p (d ++ t₂) := by
  rw [isPre_take p (d ++ t₁), isPre_take p (d ++ t₂),
      take_append_le _ _ _ h, take_append_le _ _ _ h]

theorem isPre_trans_false (p t w : List Char) (hpt : isPre p t = true)
    (h : isPre p w = false) : isPre t w = false := by
  cases hw : isPre t w with
  | false => rfl
  | true =>
    exfalso
    obtain ⟨r, rfl⟩ := (isPre_iff t w).mp hw
    obtain ⟨r', rfl⟩ := (isPre_iff p t).mp hpt
    rw [List.append_assoc, isPre_append_self] at h
    simp at h

/-! Unfolding equations for `replaceAll` (the fuel is irrelevant once it
covers the input length) and the lemmas about replacement. -/

theorem replaceAllAux_fuel (pat repl : List Char) (hp : pat ≠ []) :
    ∀ f₁ f₂ s, s.length ≤ f₁ → s.length ≤ f₂ →
      replaceAllAux pat repl f₁ s = replaceAllAux pat repl f₂ s := by
  intro f₁
  induction f₁ with
  | zero =>
    intro f₂ s h1 _
    have hs : s = [] := List.eq_nil_of_length_eq_zero (Nat.le_zero.mp h1)
    subst hs
    cases f₂ <;> rfl
  | succ f ih =>
    intro f₂ s h1 h2
    cases s with
    | nil => cases f₂ <;> rfl
    | cons c rest =>
      cases f₂ with
      | zero => simp at h2
      | succ g =>
        have hlpat : 1 ≤ pat.length := by
          cases pat with
          | nil => exact absurd rfl hp
          | cons _ _ => simp
        have hdrop : ((c :: rest).drop pat.length).length ≤ rest.length := by
          rw [List.length_drop]
          simp only [List.length_cons]
          omega
        show (if isPre pat (c :: rest) = true then
            repl ++ replaceAllAux pat repl f ((c :: rest).drop pat.length)
          else c :: replaceAllAux pat repl f rest) =
          (if isPre pat (c :: rest) = true then
            repl ++ replaceAllAux pat repl g ((c :: rest).drop pat.length)
          else c :: replaceAllAux pat repl g rest)
        by_cases hpre : isPre pat (c :: rest) = true
        · rw [if_pos hpre, if_pos hpre,
              ih g _ (Nat.le_trans hdrop (Nat.le_of_succ_le_succ h1))
                (Nat.le_trans hdrop (Nat.le_of_succ_le_succ h2))]
        · rw [if_neg hpre, if_neg hpre,
              ih g rest (Nat.le_of_succ_le_succ h1) (Nat.le_of_succ_le_succ h2)]

theorem replaceAll_cons_pos (pat repl : List Char) (c : Char) (rest : List Char)
    (hp : pat ≠ []) (h : isPre pat (c :: rest) = true) :
    replaceAll pat repl (c :: rest) =
      repl ++ replaceAll pat repl ((c :: rest).drop pat.length) := by
  have hdrop : ((c :: rest).drop pat.length).length ≤ rest.length := by
    rw [List.length_drop]
    simp only [List.length_cons]
    have : 1 ≤ pat.length := by
      cases pat with
      | nil => exact absurd rfl hp
      | cons _ _ => simp
    omega
  show (if isPre pat (c :: rest) = true then
      repl ++ replaceAllAux pat repl rest.length ((c :: rest).drop pat.length)
    else c :: replaceAllAux pat repl rest.length rest) = _
  rw [if_pos h]
  unfold replaceAll
  rw [replaceAllAux_fuel pat repl hp rest.length _ _ hdrop (Nat.le_refl _)]

theorem replaceAll_cons_neg (pat repl : List Char) (c : Char) (rest : List Char)
    (h : isPre pat (c :: rest) = false) :
    replaceAll pat repl (c :: rest) = c :: replaceAll pat repl rest := by
  show (if isPre pat (c :: rest) = true then
      repl ++ replaceAllAux pat repl rest.length ((c :: rest).drop pat.length)
    else c :: replaceAllAux pat repl rest.length rest) = _
  rw [if_neg (by simp [h])]
  rfl

theorem replaceAll_skip (pat repl : List Char) :
    ∀ u z, (∀ q, q < u.length → isPre pat ((u ++ z).drop q) = false) →
      replaceAll pat repl (u ++ z) = u ++ replaceAll pat repl z := by
  intro u
  induction u with
  | nil => intro z _; rfl
  | cons a u' ih =>
    intro z h
    have h0 : isPre pat (a :: (u' ++ z)) = false := h 0 (by simp)
    have hrec : ∀ q, q < u'.length → isPre pat ((u' ++ z).drop q) = false := by
      intro q hq
      exact h (q + 1) (by simpa using Nat.succ_lt_succ hq)
    show replaceAll pat repl (a :: (u' ++ z)) = a :: (u' ++ replaceAll pat repl z)
    rw [replaceAll_cons_neg pat repl a (u' ++ z) h0, ih z hrec]

theorem replaceAll_head (pat repl z : List Char) (hp : pat ≠ [])
    (h : isPre pat z = true) :
    replaceAll pat repl z = repl ++ replaceAll pat repl (z.drop pat.length) := by
  cases z with
  | nil => rw [isPre_nil_false pat hp] at h; exact absurd h (by simp)
  | cons c rest => exact replaceAll_cons_pos pat repl c rest hp h

theorem replaceAll_self_aux (pat : List Char) (hp : pat ≠ []) :
    ∀ n z, z.length ≤ n → replaceAll pat pat z = z := by
  intro n
  induction n with
  | zero =>
    intro z h
    have hz : z = [] := List.eq_nil_of_length_eq_zero (Nat.le_zero.mp h)
    subst hz; rfl
  | succ m ih =>
    intro z hz
    cases z with
    | nil => rfl
    | cons c rest =>
      by_cases hpre : isPre pat (c :: rest) = true
      · rw [replaceAll_cons_pos pat pat c rest hp hpre]
        obtain ⟨r, hr⟩ := (isPre_iff pat (c :: rest)).mp hpre
        rw [hr, drop_len_append, ih r ?_]
        have hlpat : 1 ≤ pat.length := by
          cases pat with
          | nil => exact absurd rfl hp
          | cons _ _ => simp
        have hlen : (c :: rest).length = pat.length + r.length := by
          rw [hr, List.length_append]
        simp only [List.length_cons] at hlen hz
        omega
      · rw [replaceAll_cons_neg pat pat c rest (by simpa using hpre),
            ih rest (Nat.le_of_succ_le_succ hz)]

theorem replaceAll_self (pat z : List Char) (hp : pat ≠ []) :
    replaceAll pat pat z = z :=
  replaceAll_self_aux pat hp z.length z (Nat.le_refl _)

theorem replaceOnce_gt (r : List Char) :
    ∀ a b, '>' ∉ a → replaceOnce ['>'] r (a ++ '>' :: b) = a ++ (r ++ b) := by
  intro a
  induction a with
  | nil =>
    intro b _
    show (if isPre ['>'] ('>' :: b) = true then r ++ ('>' :: b).drop 1
      else '>' :: replaceOnce ['>'] r b) = r ++ b
    rw [if_pos (by simp [isPre])]
    rfl
  | cons x xs ih =>
    intro b h
    have hx : ¬ '>' = x := fun hh => h (by simp [hh.symm])
    show (if isPre ['>'] (x :: (xs ++ '>' :: b)) = true then
        r ++ (x :: (xs ++ '>' :: b)).drop 1
      else x :: replaceOnce ['>'] r (xs ++ '>' :: b)) = x :: (xs ++ (r ++ b))
    rw [if_neg (by simp [isPre, hx]), ih b (fun hm => h (List.mem_cons_of_mem _ hm))]

/-! Lemmas about the leftmost-shortest `<application.*?>` match. -/

theorem takeUpToGt_some (l : List Char) :
    ∀ t, takeUpToGt l = some t →
      ∃ s v, l = s ++ '>' :: v ∧ t = s ++ ['>'] ∧ '>' ∉ s := by
  induction l with
  | nil => intro t h; exact absurd h (by simp [takeUpToGt])
  | cons c rest ih =>
    intro t h
    by_cases hc : c = '>'
    · subst hc
      have ht : t = ['>'] := by
        have : some ['>'] = some t := by simpa [takeUpToGt] using h
        exact (Option.some.inj this).symm
      exact ⟨[], rest, rfl, ht, by simp⟩
    · simp only [takeUpToGt, if_neg hc, Option.map_eq_some'] at h
      obtain ⟨t', ht', rfl⟩ := h
      obtain ⟨s, v, hl, ht'', hs⟩ := ih t' ht'
      refine ⟨c :: s, v, by rw [hl]; rfl, by rw [ht'']; rfl, ?_⟩
      intro hm
      rcases List.mem_cons.mp hm with hm | hm
      · exact hc hm.symm
      · exact hs hm

theorem takeUpToGt_none (l : List Char) (h : takeUpToGt l = none) : '>' ∉ l := by
  induction l with
  | nil => simp
  | cons c rest ih =>
    by_cases hc : c = '>'
    · subst hc; simp [takeUpToGt] at h
    · simp only [takeUpToGt, if_neg hc, Option.map_eq_none'] at h
      intro hm
      rcases List.mem_cons.mp hm with hm | hm
      · exact hc hm.symm
      · exact ih h hm

theorem takeUpToGt_calc (v : List Char) :
    ∀ s, '>' ∉ s → takeUpToGt (s ++ '>' :: v) = some (s ++ ['>']) := by
  intro s
  induction s with
  | nil => intro _; simp [takeUpToGt]
  | cons c s' ih =>
    intro h
    have hc : ¬ c = '>' := fun hh => h (by simp [hh])
    show takeUpToGt (c :: (s' ++ '>' :: v)) = some (c :: (s' ++ ['>']))
    rw [takeUpToGt, if_neg hc, ih (fun hm => h (List.mem_cons_of_mem _ hm))]
    rfl

theorem matchAppAt_some (z : List Char) :
    ∀ t, matchAppAt z = some t →
      ∃ s v, z = (appLit ++ s ++ ['>']) ++ v ∧ t = appLit ++ s ++ ['>'] ∧ '>' ∉ s := by
  intro t h
  unfold matchAppAt at h
  by_cases hpre : isPre appLit z = true
  · rw [if_pos hpre] at h
    obtain ⟨r, rfl⟩ := (isPre_iff _ _).mp hpre
    rw [drop_len_append] at h
    rw [Option.map_eq_some'] at h
    obtain ⟨t', ht', rfl⟩ := h
    obtain ⟨s, v, hr, ht'', hs⟩ := takeUpToGt_some r t' ht'
    exact ⟨s, v, by rw [hr]; simp [List.append_assoc], by rw [ht'', List.append_assoc], hs⟩
  · rw [if_neg hpre] at h
    exact absurd h (by simp)

theorem matchAppAt_calc (s v : List Char) (hs : '>' ∉ s) :
    matchAppAt (appLit ++ (s ++ '>' :: v)) = some (appLit ++ s ++ ['>']) := by
  unfold matchAppAt
  rw [if_pos (isPre_append_self appLit (s ++ '>' :: v)), drop_len_append,
      takeUpToGt_calc v s hs]
  rw [Option.map_some', List.append_assoc]

theorem matchAppAt_none_no_gt (z : List Char) (h : matchAppAt z = none)
    (hpre : isPre appLit z = true) : '>' ∉ z.drop appLit.length := by
  unfold matchAppAt at h
  rw [if_pos hpre, Option.map_eq_none'] at h
  exact takeUpToGt_none _ h

theorem firstAppTag_some (x : List Char) :
    ∀ t, firstAppTag x = some t →
      ∃ u s v, x = u ++ (appLit ++ s ++ ['>']) ++ v ∧ t = appLit ++ s ++ ['>'] ∧
        '>' ∉ s ∧ ∀ q, q < u.length → isPre appLit (x.drop q) = false := by
  induction x with
  | nil => intro t h; exact absurd h (by simp [firstAppTag])
  | cons c rest ih =>
    intro t h
    rw [show firstAppTag (c :: rest) = (match matchAppAt (c :: rest) with
          | some t => some t | none => firstAppTag rest) from rfl] at h
    cases hm : matchAppAt (c :: rest) with
    | some t' =>
      rw [hm] at h
      have ht : t' = t := Option.some.inj h
      subst ht
      obtain ⟨s, v, hz, ht', hs⟩ := matchAppAt_some (c :: rest) t' hm
      exact ⟨[], s, v, by simpa using hz, ht', hs, by intro q hq; simp at hq⟩
    | none =>
      rw [hm] at h
      obtain ⟨u, s, v, hx, ht, hs, hq⟩ := ih t h
      refine ⟨c :: u, s, v, by simp [hx], ht, hs, ?_⟩
      intro q hq'
      cases q with
      | zero =>
        show isPre appLit (c :: rest) = false
        cases hpre : isPre appLit (c :: rest) with
        | false => rfl
        | true =>
          exfalso
          have hnogt := matchAppAt_none_no_gt (c :: rest) hm hpre
          obtain ⟨r, hr⟩ := (isPre_iff _ _).mp hpre
          apply hnogt
          rw [hr, drop_len_append]
          have hmem : '>' ∈ c :: rest := by
            rw [hx]
            exact List.mem_cons_of_mem c
              (List.mem_append.mpr (Or.inl (List.mem_append.mpr (Or.inr
                (List.mem_append.mpr (Or.inr (by simp)))))))
          rw [hr] at hmem
          rcases List.mem_append.mp hmem with hmem | hmem
          · exact absurd hmem (by decide)
          · exact hmem
      | succ q' =>
        show isPre appLit (rest.drop q') = false
        exact hx ▸ hq q' (Nat.lt_of_succ_lt_succ hq')

theorem firstAppTag_calc :
    ∀ (u s v : List Char), '>' ∉ s →
      (∀ q, q < u.length →
        isPre appLit ((u ++ (appLit ++ s ++ ['>']) ++ v).drop q) = false) →
      firstAppTag (u ++ (appLit ++ s ++ ['>']) ++ v) = some (appLit ++ s ++ ['>']) := by
  intro u
  induction u with
  | nil =>
    intro s v hs _
    have hform : ([] : List Char) ++ (appLit ++ s ++ ['>']) ++ v =
        appLit ++ (s ++ '>' :: v) := by simp [List.append_assoc]
    rw [hform]
    have hm := matchAppAt_calc s v hs
    cases hx : appLit ++ (s ++ '>' :: v) with
    | nil => exact absurd hx (by simp [appLit])
    | cons c rest =>
      rw [hx] at hm
      rw [show firstAppTag (c :: rest) = (match matchAppAt (c :: rest) with
            | some t => some t | none => firstAppTag rest) from rfl, hm]
  | cons a u' ih =>
    intro s v hs hq
    have h0 : isPre appLit (a :: (u' ++ (appLit ++ s ++ ['>']) ++ v)) = false :=
      hq 0 (by simp)
    have hm : matchAppAt (a :: (u' ++ (appLit ++ s ++ ['>']) ++ v)) = none := by
      unfold matchAppAt
      rw [if_neg (by rw [h0]; simp)]
    show firstAppTag (a :: (u' ++ (appLit ++ s ++ ['>']) ++ v)) = _
    rw [show firstAppTag (a :: (u' ++ (appLit ++ s ++ ['>']) ++ v)) =
          (match matchAppAt (a :: (u' ++ (appLit ++ s ++ ['>']) ++ v)) with
            | some t => some t
            | none => firstAppTag (u' ++ (appLit ++ s ++ ['>']) ++ v)) from rfl, hm]
    exact ih s v hs (fun q hq' => hq (q + 1) (by simpa using Nat.succ_lt_succ hq'))

/-! Structure of the modified tag. -/

theorem replaceOnce_tag (rep s₁ : List Char) (h₁ : '>' ∉ appLit ++ s₁) :
    replaceOnce ['>'] rep (appLit ++ s₁ ++ ['>']) = (appLit ++ s₁) ++ rep := by
  have h2 : appLit ++ s₁ ++ ['>'] = (appLit ++ s₁) ++ '>' :: [] := rfl
  rw [h2, replaceOnce_gt rep (appLit ++ s₁) [] h₁]
  simp

theorem modTag_fix (md : Bool) (z : List Char) (h1 : containsSub nsName z = true)
    (h2 : md = true → containsSub dbgName z = true) : modTag md z = z := by
  show (if md && ! containsSub dbgName z then
      replaceOnce ['>'] dbgRepl (if containsSub nsName z then z
        else replaceOnce ['>'] nsRepl z)
    else (if containsSub nsName z then z else replaceOnce ['>'] nsRepl z)) = z
  rw [if_pos h1]
  cases hmd : md with
  | false => simp
  | true => rw [h2 hmd]; simp

theorem modTag_struct (md : Bool) (s : List Char) (hs : '>' ∉ s) :
    ∃ s', modTag md (appLit ++ s ++ ['>']) = appLit ++ s' ++ ['>'] ∧ '>' ∉ s' ∧
      containsSub nsName (modTag md (appLit ++ s ++ ['>'])) = true ∧
      (md = true → containsSub dbgName (modTag md (appLit ++ s ++ ['>'])) = true) := by
  have hgtApp : '>' ∉ appLit := by decide
  have hgtNs : '>' ∉ nsAttr := by decide
  have hgtDbg : '>' ∉ dbgAttr := by decide
  have hgtNsName : '>' ∉ nsName := by decide
  have hgtDbgName : '>' ∉ dbgName := by decide
  have hnsGt : containsSub nsName ['>'] = false := by decide
  have hdbgGt : containsSub dbgName ['>'] = false := by decide
  have hnsInNsRepl : containsSub nsName nsRepl = true := by decide
  have hdbgInDbgRepl : containsSub dbgName dbgRepl = true := by decide
  have hnsReplEq : nsRepl = nsAttr ++ ['>'] := by decide
  have hdbgReplEq : dbgRepl = dbgAttr ++ ['>'] := by decide
  have hApS : '>' ∉ appLit ++ s := by
    intro hm; rcases List.mem_append.mp hm with hm | hm
    exacts [hgtApp hm, hs hm]
  -- the value of `modified_tag` after the network-security step
  have hm1 : ∃ s₁, (if containsSub nsName (appLit ++ s ++ ['>'])
        then appLit ++ s ++ ['>']
        else replaceOnce ['>'] nsRepl (appLit ++ s ++ ['>'])) =
        appLit ++ s₁ ++ ['>'] ∧ '>' ∉ appLit ++ s₁ ∧
      containsSub nsName (appLit ++ s₁ ++ ['>']) = true ∧
      (containsSub dbgName (appLit ++ s ++ ['>']) = true →
        containsSub dbgName (appLit ++ s₁ ++ ['>']) = true) := by
    by_cases hns : containsSub nsName (appLit ++ s ++ ['>']) = true
    · exact ⟨s, by rw [if_pos hns], hApS, hns, fun h => h⟩
    · refine ⟨s ++ nsAttr, ?_, ?_, ?_, ?_⟩
      · rw [if_neg hns, replaceOnce_tag nsRepl s hApS, hnsReplEq]
        simp [List.append_assoc]
      · intro hm
        rcases List.mem_append.mp hm with hm | hm
        · exact hgtApp hm
        · rcases List.mem_append.mp hm with hm | hm
          exacts [hs hm, hgtNs hm]
      · have h1 : containsSub nsName ((appLit ++ (s ++ nsAttr)) ++ ['>']) = true := by
          apply containsSub_append_left
          apply containsSub_append_right
          apply containsSub_append_right
          have : containsSub nsName nsAttr = true := by decide
          exact this
        have h2 : appLit ++ (s ++ nsAttr) ++ ['>'] =
            (appLit ++ (s ++ nsAttr)) ++ ['>'] := rfl
        rw [h2]
        exact h1
      · intro hd
        rw [containsSub_split dbgName '>' hgtDbgName (appLit ++ s) []] at hd
        rw [hdbgGt, Bool.or_false] at hd
        have h2 : appLit ++ (s ++ nsAttr) ++ ['>'] =
            (appLit ++ s) ++ (nsAttr ++ ['>']) := by simp [List.append_assoc]
        rw [h2]
        exact containsSub_append_left dbgName (appLit ++ s) (nsAttr ++ ['>']) hd
  obtain ⟨s₁, h1, h2, h3, h4⟩ := hm1
  have hshape : modTag md (appLit ++ s ++ ['>']) =
      (if md && ! containsSub dbgName (appLit ++ s ++ ['>']) then
        replaceOnce ['>'] dbgRepl (appLit ++ s₁ ++ ['>'])
      else appLit ++ s₁ ++ ['>']) := by
    show (if md && ! containsSub dbgName (appLit ++ s ++ ['>']) then
        replaceOnce ['>'] dbgRepl (if containsSub nsName (appLit ++ s ++ ['>'])
          then appLit ++ s ++ ['>']
          else replaceOnce ['>'] nsRepl (appLit ++ s ++ ['>']))
      else (if containsSub nsName (appLit ++ s ++ ['>'])
          then appLit ++ s ++ ['>']
          else replaceOnce ['>'] nsRepl (appLit ++ s ++ ['>']))) = _
    rw [h1]
  have hs₁ : '>' ∉ s₁ := fun hm => h2 (List.mem_append.mpr (Or.inr hm))
  by_cases hdc : (md && ! containsSub dbgName (appLit ++ s ++ ['>'])) = true
  · -- the debuggable attribute is inserted as well
    have hres : modTag md (appLit ++ s ++ ['>']) =
        appLit ++ (s₁ ++ dbgAttr) ++ ['>'] := by
      rw [hshape, if_pos hdc, replaceOnce_tag dbgRepl s₁ h2, hdbgReplEq]
      simp [List.append_assoc]
    refine ⟨s₁ ++ dbgAttr, hres, ?_, ?_, ?_⟩
    · intro hm
      rcases List.mem_append.mp hm with hm | hm
      exacts [hs₁ hm, hgtDbg hm]
    · rw [hres]
      rw [containsSub_split nsName '>' hgtNsName (appLit ++ s₁) []] at h3
      rw [hnsGt, Bool.or_false] at h3
      have he : appLit ++ (s₁ ++ dbgAttr) ++ ['>'] =
          (appLit ++ s₁) ++ (dbgAttr ++ ['>']) := by simp [List.append_assoc]
      rw [he]
      exact containsSub_append_left nsName (appLit ++ s₁) (dbgAttr ++ ['>']) h3
    · intro _
      rw [hres]
      have he : appLit ++ (s₁ ++ dbgAttr) ++ ['>'] = (appLit ++ s₁) ++ dbgRepl := by
        rw [hdbgReplEq]; simp [List.append_assoc]
      rw [he]
      exact containsSub_append_right dbgName (appLit ++ s₁) dbgRepl hdbgInDbgRepl
  · have hres : modTag md (appLit ++ s ++ ['>']) = appLit ++ s₁ ++ ['>'] := by
      rw [hshape, if_neg hdc]
    refine ⟨s₁, hres, hs₁, by rw [hres]; exact h3, ?_⟩
    intro hmd
    rw [hres]
    apply h4
    cases hc : containsSub dbgName (appLit ++ s ++ ['>']) with
    | true => rfl
    | false =>
      exact absurd (by rw [hmd, hc]; rfl :
        (md && ! containsSub dbgName (appLit ++ s ++ ['>'])) = true) hdc

/-- C3: the manifest patch is exactly idempotent — for every manifest
text on which it succeeds and each fixed setting of the debuggable
flag, applying the transformation of source lines 157-165 to its own
output returns that output unchanged; in particular an attribute
already present in the application tag is never duplicated or
overwritten (the second application modifies nothing). -/
theorem c3_patch_idempotent (md : Bool) (x y : List Char)
    (h : patchManifest md x = some y) : patchManifest md y = some y := by
  unfold patchManifest at h
  cases hft : firstAppTag x with
  | none => rw [hft] at h; exact absurd h (by simp)
  | some t =>
    rw [hft] at h
    have hy : y = replaceAll t (modTag md t) x := (Option.some.inj h).symm
    obtain ⟨u, s, v, hx, ht, hs, hq⟩ := firstAppTag_some x t hft
    obtain ⟨s', hmod, hs', hcns, hcdbg⟩ := modTag_struct md s hs
    rw [← ht] at hmod hcns hcdbg
    have hpt : isPre appLit t = true := by
      rw [ht]
      exact (isPre_iff _ _).mpr ⟨s ++ ['>'], by simp [List.append_assoc]⟩
    have htne : t ≠ [] := by rw [ht]; simp
    have hx' : x = u ++ (t ++ v) := by rw [hx, ht, List.append_assoc]
    have hqt : ∀ q, q < u.length → isPre t ((u ++ (t ++ v)).drop q) = false := by
      intro q hq'
      apply isPre_trans_false appLit t _ hpt
      rw [← hx']
      exact hq q hq'
    have hy2 : y = u ++ (modTag md t ++ replaceAll t (modTag md t) v) := by
      rw [hy, hx', replaceAll_skip t (modTag md t) u (t ++ v) hqt,
          replaceAll_head t (modTag md t) (t ++ v) htne (isPre_append_self t v),
          drop_len_append]
    have htransfer : ∀ q, q < u.length →
        isPre appLit ((u ++ (appLit ++ s' ++ ['>']) ++
          replaceAll t (modTag md t) v).drop q) = false := by
      intro q hq'
      have hqle : q ≤ u.length := Nat.le_of_lt hq'
      rw [List.append_assoc, drop_append_le q u _ hqle]
      have hxdrop : x.drop q = u.drop q ++ (t ++ v) := by
        rw [hx', drop_append_le q u _ hqle]
      have hstab : isPre appLit (u.drop q ++ ((appLit ++ s' ++ ['>']) ++
            replaceAll t (modTag md t) v)) =
          isPre appLit (u.drop q ++ (t ++ v)) := by
        have e1 : u.drop q ++ ((appLit ++ s' ++ ['>']) ++
              replaceAll t (modTag md t) v) =
            (u.drop q ++ appLit) ++ (s' ++ '>' :: replaceAll t (modTag md t) v) := by
          simp [List.append_assoc]
        have e2 : u.drop q ++ (t ++ v) =
            (u.drop q ++ appLit) ++ (s ++ '>' :: v) := by
          rw [ht]; simp [List.append_assoc]
        rw [e1, e2]
        exact isPre_stable appLit (u.drop q ++ appLit) _ _
          (by rw [List.length_append]; exact Nat.le_add_left _ _)
      rw [hstab, ← hxdrop]
      exact hq q hq'
    have hyform : y = u ++ (appLit ++ s' ++ ['>']) ++
        replaceAll t (modTag md t) v := by
      rw [hy2, hmod, ← List.append_assoc]
    have hft2 : firstAppTag y = some (appLit ++ s' ++ ['>']) := by
      rw [hyform]
      exact firstAppTag_calc u s' (replaceAll t (modTag md t) v) hs' htransfer
    have hstep : patchManifest md y = some (replaceAll (appLit ++ s' ++ ['>'])
        (modTag md (appLit ++ s' ++ ['>'])) y) := by
      unfold patchManifest
      rw [hft2]
    rw [hstep, ← hmod, modTag_fix md (modTag md t) hcns hcdbg,
        replaceAll_self (modTag md t) y (by rw [hmod]; simp)]

/-- C3 witness: on a concrete bare application tag with the debuggable
flag set, the patch succeeds with both attributes appended, and
`c3_patch_idempotent` applied at this input shows re-patching the
result is the identity. -/
theorem c3_patch_idempotent_witness :
    patchManifest true "<application>".data =
      some ("<application android:networkSecurityConfig=\"@xml/network_security_config\" android:debuggable=\"true\">".data) ∧
    patchManifest true ("<application android:networkSecurityConfig=\"@xml/network_security_config\" android:debuggable=\"true\">".data) =
      some ("<application android:networkSecurityConfig=\"@xml/network_security_config\" android:debuggable=\"true\">".data) :=
  ⟨by decide, c3_patch_idempotent true "<application>".data
    ("<application android:networkSecurityConfig=\"@xml/network_security_config\" android:debuggable=\"true\">".data)
    (by decide)⟩

/-- C2 (amended): for every manifest whose located application tag
lacks the network-security attribute, the modified tag is exactly the
original tag with the attribute text inserted before the closing `'>'`
(all other bytes of the tag unchanged, exactly one occurrence of the
attribute name in the result), and the document transformation is
`content.replace(app_tag, modified_tag)` — Python's replace-all, which
rewrites every leftmost non-overlapping occurrence of the tag text, not
only the first. -/
theorem c2_patch_tag_insertion (x t : List Char)
    (h1 : firstAppTag x = some t) (h2 : containsSub nsName t = false) :
    ∃ tInit, t = tInit ++ ['>'] ∧
      patchManifest false x = some (replaceAll t (tInit ++ nsRepl) x) ∧
      countOccs nsName (tInit ++ nsRepl) = 1 := by
  obtain ⟨u, s, v, hx, ht, hs, hq⟩ := firstAppTag_some x t h1
  have hgtApp : '>' ∉ appLit := by decide
  have hApS : '>' ∉ appLit ++ s := by
    intro hm; rcases List.mem_append.mp hm with hm | hm
    exacts [hgtApp hm, hs hm]
  refine ⟨appLit ++ s, by rw [ht], ?_, ?_⟩
  · have hmod : modTag false t = (appLit ++ s) ++ nsRepl := by
      show (if false && ! containsSub dbgName t then
          replaceOnce ['>'] dbgRepl (if containsSub nsName t then t
            else replaceOnce ['>'] nsRepl t)
        else (if containsSub nsName t then t
            else replaceOnce ['>'] nsRepl t)) = _
      rw [if_neg (by simp), if_neg (by simp [h2]), ht,
          replaceOnce_tag nsRepl s hApS]
    unfold patchManifest
    rw [h1]
    show some (replaceAll t (modTag false t) x) = _
    rw [hmod]
  · have hsplit : nsRepl =
        ' ' :: "android:networkSecurityConfig=\"@xml/network_security_config\">".data := by
      decide
    have hspace : ' ' ∉ nsName := by decide
    rw [hsplit, countOccs_split nsName ' ' hspace (appLit ++ s)
        "android:networkSecurityConfig=\"@xml/network_security_config\">".data]
    have hone : countOccs nsName
        (' ' :: "android:networkSecurityConfig=\"@xml/network_security_config\">".data) = 1 := by
      decide
    have hzero : countOccs nsName (appLit ++ s) = 0 := by
      rw [countOccs_zero_iff nsName (by decide) (appLit ++ s)]
      rw [ht, containsSub_split nsName '>' (by decide) (appLit ++ s) []] at h2
      rcases Bool.or_eq_false_iff.mp h2 with ⟨ha, _⟩
      exact ha
    rw [hone, hzero]

/-- C2 counterexample: a document holding the located application tag
text twice.  The code's `content.replace(app_tag, modified_tag)` (no
count argument) rewrites both occurrences, so the result differs from
the document obtained by replacing exactly the first occurrence and
leaving the rest of the document untouched, as the claim states. -/
theorem c2_counterexample :
    patchManifest false "<application a>Z<application a>".data =
      some "<application a android:networkSecurityConfig=\"@xml/network_security_config\">Z<application a android:networkSecurityConfig=\"@xml/network_security_config\">".data ∧
    "<application a android:networkSecurityConfig=\"@xml/network_security_config\">Z<application a android:networkSecurityConfig=\"@xml/network_security_config\">".data ≠
      "<application a android:networkSecurityConfig=\"@xml/network_security_config\">Z<application a>".data :=
  ⟨by decide, by decide⟩

/-- C2 witness: `c2_patch_tag_insertion` applied to a concrete bare
application tag. -/
theorem c2_patch_tag_insertion_witness :
    ∃ tInit, "<application>".data = tInit ++ ['>'] ∧
      patchManifest false "<application>".data =
        some (replaceAll "<application>".data (tInit ++ nsRepl) "<application>".data) ∧
      countOccs nsName (tInit ++ nsRepl) = 1 :=
  c2_patch_tag_insertion "<application>".data "<application>".data
    (by decide) (by decide)

/-- C6: after every staged run — success, staged failure, or an
unexpected fault — the `finally` block has run: the workspace directory
no longer exists, the intermediate rebuilt-but-unaligned archive is
removed, and the trace ends with the cleanup log line. -/
theorem c6_cleanup_always (c : Config) (w : World) :
    (runPatcher c w).fs.tmpDir = false ∧ (runPatcher c w).fs.tempApk = false ∧
    ∃ pre, (runPatcher c w).trace = pre ++ [PEvent.log LogTag.stage7] :=
  ⟨rfl, rfl, _, rfl⟩

/-- C4: a run with a user-supplied keystore path whose file does not
exist fails with the keystore-not-found error, invokes no external tool
at all, generates no key, and leaves no workspace directory behind. -/
theorem c4_custom_keystore_missing (c : Config) (w : World)
    (hc : isCustomKeystore c = true) (hk : w.keystoreExists = false) :
    (runPatcher c w).outcome = Outcome.failure PatchError.keystoreNotFound ∧
    (∀ cm : Cmd, PEvent.cmd cm ∉ (runPatcher c w).trace) ∧
    (runPatcher c w).fs.keystore = false ∧
    (runPatcher c w).fs.tmpDir = false := by
  have htry : tryBody c w = ([.progress 0],
      { keystore := w.keystoreExists, tmpDir := w.tmpDirPre,
        tempApk := w.tempApkPre, finalApk := false, manifest := none },
      some .keystoreNotFound) := by
    unfold tryBody
    rw [hc, hk]
    rfl
  unfold runPatcher
  rw [htry, hk]
  refine ⟨rfl, ?_, rfl, rfl⟩
  intro cm hm
  simp at hm

/-- C4 witness: `c4_custom_keystore_missing` at a concrete custom
keystore path and a world whose keystore file is absent. -/
theorem c4_custom_keystore_missing_witness :
    (runPatcher cfgCustom wNoKeystore).outcome =
      Outcome.failure PatchError.keystoreNotFound ∧
    (∀ cm : Cmd, PEvent.cmd cm ∉ (runPatcher cfgCustom wNoKeystore).trace) ∧
    (runPatcher cfgCustom wNoKeystore).fs.keystore = false ∧
    (runPatcher cfgCustom wNoKeystore).fs.tmpDir = false :=
  c4_custom_keystore_missing cfgCustom wNoKeystore (by decide) rfl

/-- C5: when the pipeline reaches the manifest stage and the manifest
has no application tag, the run fails with the missing-root-element
error and the manifest content is never written (it stays exactly the
decompiled content). -/
theorem c5_missing_root (c : Config) (w : World) (content : List Char)
    (hks : isCustomKeystore c = true → w.keystoreExists = true)
    (hgen : w.keystoreExists = false → w.keytoolOk = true)
    (hd : w.apktoolDOk = true) (ha : w.configAssetOk = true)
    (hm : w.decompiledManifest = some content)
    (hroot : firstAppTag content = none) :
    (runPatcher c w).outcome = Outcome.failure PatchError.missingRootElement ∧
    (runPatcher c w).fs.manifest = some content := by
  have hpm : patchManifest c.makeDebuggable content = none := by
    unfold patchManifest
    rw [hroot]
  have hpipe : ∀ e fs, (pipelineFromDecompile c w e fs).2.2 =
        some PatchError.missingRootElement ∧
      (pipelineFromDecompile c w e fs).2.1.manifest = some content := by
    intro e fs
    unfold pipelineFromDecompile
    simp [hd, ha, hm, hpm]
  have htry : (tryBody c w).2.2 = some PatchError.missingRootElement ∧
      (tryBody c w).2.1.manifest = some content := by
    unfold tryBody
    cases hc : isCustomKeystore c with
    | true =>
      have hke : w.keystoreExists = true := hks hc
      simpa [hc, hke] using hpipe _ _
    | false =>
      cases hke : w.keystoreExists with
      | true => simpa [hc, hke] using hpipe _ _
      | false =>
        have hkt : w.keytoolOk = true := hgen hke
        simpa [hc, hke, hkt] using hpipe _ _
  constructor
  · show (match (tryBody c w).2.2 with
      | none => Outcome.success | some e => Outcome.failure e) = _
    rw [htry.1]
  · show (tryBody c w).2.1.manifest = some content
    exact htry.2

/-- C5 witness: `c5_missing_root` on the default options and a world
whose decompiled manifest is `"no tag here"`. -/
theorem c5_missing_root_witness :
    (runPatcher cfgEx wNoRoot).outcome =
      Outcome.failure PatchError.missingRootElement ∧
    (runPatcher cfgEx wNoRoot).fs.manifest = some "no tag here".data :=
  c5_missing_root cfgEx wNoRoot "no tag here".data (by decide) (fun h => by cases h)
    rfl rfl rfl (by decide)

/-- C1 (code bug): on a fully successful staged run the terminal signal
is emitted exactly once and carries `true` plus a message — two
arguments — although the signal is declared with three parameters
(`pyqtSignal(bool, str, str)`, source line 64); the output artifact
path is never passed as the third argument on the staged path (source
lines 182 and 186). -/
theorem c1_two_arg_terminal :
    (runPatcher cfgEx wAllOk).outcome = Outcome.success ∧
    finishedOf (runPatcher cfgEx wAllOk).trace = [(true, 2)] ∧
    (2 : Nat) ≠ patcherFinishedSigArity :=
  ⟨by decide, by decide, by decide⟩

set_option maxHeartbeats 4000000 in
/-- C9: an empty alias defaults to `"androiddebugkey"` and an empty
password to `"android"` (source lines 80-81), for the default and the
user-supplied keystore alike, and every signing invocation of a staged
run carries exactly these resolved values (source line 178). -/
theorem c9_signing_defaults (c : Config) (w : World) :
    (c.keyAlias = "" → resolvedAlias c = "androiddebugkey") ∧
    (c.keyPass = "" → resolvedPass c = "android") ∧
    ∀ al pw, PEvent.cmd (Cmd.apksigner al pw) ∈ (runPatcher c w).trace →
      al = resolvedAlias c ∧ pw = resolvedPass c := by
  refine ⟨fun h => by rw [resolvedAlias, if_pos h],
          fun h => by rw [resolvedPass, if_pos h], ?_⟩
  intro al pw hm
  obtain ⟨ks, kt, ad, dm, ca, ab, za, sg, tp, ta⟩ := w
  simp only [runPatcher, tryBody, pipelineFromDecompile] at hm
  cases hcu : isCustomKeystore c <;> rw [hcu] at hm <;>
    cases ks <;> cases kt <;> cases ad <;> cases ca <;> cases ab <;> cases za <;>
    cases sg <;> rcases dm with _ | content
  all_goals dsimp only at hm
  all_goals try (cases hpm : patchManifest c.makeDebuggable content <;> rw [hpm] at hm)
  all_goals simp at hm
  all_goals exact hm

/-- C9 witness: `c9_signing_defaults` applied on the all-success world
with empty alias and password, at the signing invocation actually
present in that trace. -/
theorem c9_signing_defaults_witness :
    "androiddebugkey" = resolvedAlias cfgEx ∧ "android" = resolvedPass cfgEx :=
  (c9_signing_defaults cfgEx wAllOk).2.2 "androiddebugkey" "android" (by decide)

set_option maxHeartbeats 4000000 in
/-- C7: in every staged run the emitted progress values form a
non-decreasing sequence, each stage-completion value precedes the log
line of the following stage and follows that stage's tool invocation,
and a successful run's progress sequence ends at 100. -/
theorem c7_progress_monotone (c : Config) (w : World) :
    nonDecr (progressOf (runPatcher c w).trace) = true ∧
    stageOrderOk (runPatcher c w).trace = true ∧
    ((runPatcher c w).outcome = Outcome.success →
      (progressOf (runPatcher c w).trace).getLast? = some 100) := by
  obtain ⟨ks, kt, ad, dm, ca, ab, za, sg, tp, ta⟩ := w
  simp only [runPatcher, tryBody, pipelineFromDecompile]
  cases hcu : isCustomKeystore c <;>
    cases ks <;> cases kt <;> cases ad <;> cases ca <;> cases ab <;> cases za <;>
    cases sg <;> rcases dm with _ | content
  all_goals dsimp only
  all_goals try (cases hpm : patchManifest c.makeDebuggable content)
  all_goals refine ⟨?_, ?_, ?_⟩
  all_goals first
    | rfl
    | (intro h; exact Outcome.noConfusion h)
    | (intro _; rfl)

/-- C7 witness: `c7_progress_monotone` on the all-success world. -/
theorem c7_progress_monotone_witness :
    nonDecr (progressOf (runPatcher cfgEx wAllOk).trace) = true ∧
    stageOrderOk (runPatcher cfgEx wAllOk).trace = true ∧
    ((runPatcher cfgEx wAllOk).outcome = Outcome.success →
      (progressOf (runPatcher cfgEx wAllOk).trace).getLast? = some 100) :=
  c7_progress_monotone cfgEx wAllOk

/-! Deep-edit helper lemmas. -/

theorem deepTerminals_append (a b : List DEvent) :
    deepTerminals (a ++ b) = deepTerminals a ++ deepTerminals b :=
  List.filterMap_append a b _

theorem deepTerminals_outs (lines : List String) :
    deepTerminals (lines.map fun s => DEvent.log (DeepLine.toolOut (pyStrip s))) = [] := by
  induction lines with
  | nil => rfl
  | cons a l ih => simp [deepTerminals] at ih ⊢

theorem deepLaunches_outs (lines : List String) :
    deepLaunches (lines.map fun s => DEvent.log (DeepLine.toolOut (pyStrip s))) = [] := by
  induction lines with
  | nil => rfl
  | cons a l ih => simp [deepLaunches] at ih ⊢

/-- C8: a deep-edit run delivers one terminal result, which is a
success exactly when the tool was present, exited with code zero, and
the expected artifact (stem plus `-patched`, beside the input) exists;
every other outcome is a failure carrying an empty output path; and
whenever the tool ran, all its streamed output lines appear in the
trace, stripped, contiguously and in order. -/
theorem c8_deep_edit_outcome (w : DeepWorld) :
    deepTerminals (runDeepEdit w) =
      [(w.exeExists && ((w.exitCode == 0) && w.outputExists),
        if w.exeExists && ((w.exitCode == 0) && w.outputExists)
        then deepOutPath w else "")] ∧
    (w.exeExists = true → ∃ pre post, runDeepEdit w =
      pre ++ (w.outLines.map fun s => DEvent.log (DeepLine.toolOut (pyStrip s)))
        ++ post) := by
  cases he : w.exeExists with
  | false =>
    constructor
    · simp [runDeepEdit, he, deepTerminals]
    · intro h; exact absurd h (by simp)
  | true =>
    cases hcond : (w.exitCode == 0 && w.outputExists) with
    | true =>
      constructor
      · have : runDeepEdit w =
            ([.log .banner, .log .cmdEcho, .launch (deepToolPath w) w.apkPath] ++
              (w.outLines.map fun s => DEvent.log (.toolOut (pyStrip s)))) ++
            [.log .doneNote, .finished true (deepOutPath w)] := by
          unfold runDeepEdit
          rw [he, hcond]
          rfl
        rw [this, deepTerminals_append, deepTerminals_append, deepTerminals_outs]
        have hc' : (w.exitCode == 0) = true ∧ w.outputExists = true :=
          Bool.and_eq_true_iff.mp hcond
        simp [deepTerminals, he, hc'.1, hc'.2]
      · intro _
        refine ⟨[.log .banner, .log .cmdEcho, .launch (deepToolPath w) w.apkPath],
          [.log .doneNote, .finished true (deepOutPath w)], ?_⟩
        unfold runDeepEdit
        rw [he, hcond]
        rfl
    | false =>
      constructor
      · have : runDeepEdit w =
            ([.log .banner, .log .cmdEcho, .launch (deepToolPath w) w.apkPath] ++
              (w.outLines.map fun s => DEvent.log (.toolOut (pyStrip s)))) ++
            [.log .exitNote, .finished false ""] := by
          unfold runDeepEdit
          rw [he, hcond]
          rfl
        rw [this, deepTerminals_append, deepTerminals_append, deepTerminals_outs]
        have hc' : ((w.exitCode == 0) && w.outputExists) = false := hcond
        simp [deepTerminals, he, hc']
      · intro _
        refine ⟨[.log .banner, .log .cmdEcho, .launch (deepToolPath w) w.apkPath],
          [.log .exitNote, .finished false ""], ?_⟩
        unfold runDeepEdit
        rw [he, hcond]
        rfl

/-- C8 witness: `c8_deep_edit_outcome` on a world whose tool exists,
streams two lines and exits with code one: the terminal is a failure
with an empty path and the stripped lines are preserved. -/
theorem c8_deep_edit_outcome_witness :
    deepTerminals (runDeepEdit dwFail) = [(false, "")] ∧
    (dwFail.exeExists = true → ∃ pre post, runDeepEdit dwFail =
      pre ++ (dwFail.outLines.map fun s => DEvent.log (DeepLine.toolOut (pyStrip s)))
        ++ post) :=
  c8_deep_edit_outcome dwFail

/-- C10: every process launched by a deep-edit run uses the fixed
program path `script_dir / "apk-mitm.exe"` (not a search over the
system path), and when that file is absent the run terminates as a
failure with an empty output path without launching anything. -/
theorem c10_deep_tool_resolution (w : DeepWorld) :
    (∀ p a, DEvent.launch p a ∈ runDeepEdit w → p = deepToolPath w) ∧
    (w.exeExists = false →
      runDeepEdit w = [DEvent.log DeepLine.excNote, DEvent.finished false ""] ∧
      ∀ p a, DEvent.launch p a ∉ runDeepEdit w) := by
  cases he : w.exeExists with
  | false =>
    have htr : runDeepEdit w = [DEvent.log DeepLine.excNote, DEvent.finished false ""] := by
      unfold runDeepEdit
      rw [he]
      rfl
    refine ⟨?_, fun _ => ⟨htr, ?_⟩⟩
    · intro p a hm
      rw [htr] at hm
      simp at hm
    · intro p a hm
      rw [htr] at hm
      simp at hm
  | true =>
    refine ⟨?_, fun h => absurd h (by simp)⟩
    intro p a hm
    cases hcond : (w.exitCode == 0 && w.outputExists) with
    | true =>
      have htr : runDeepEdit w =
          ([.log .banner, .log .cmdEcho, .launch (deepToolPath w) w.apkPath] ++
            (w.outLines.map fun s => DEvent.log (.toolOut (pyStrip s)))) ++
          [.log .doneNote, .finished true (deepOutPath w)] := by
        unfold runDeepEdit
        rw [he, hcond]
        rfl
      rw [htr] at hm
      simp at hm
      exact hm.1
    | false =>
      have htr : runDeepEdit w =
          ([.log .banner, .log .cmdEcho, .launch (deepToolPath w) w.apkPath] ++
            (w.outLines.map fun s => DEvent.log (.toolOut (pyStrip s)))) ++
          [.log .exitNote, .finished false ""] := by
        unfold runDeepEdit
        rw [he, hcond]
        rfl
      rw [htr] at hm
      simp at hm
      exact hm.1

/-- C10 witness: `c10_deep_tool_resolution` on the world whose bundled
tool is missing. -/
theorem c10_deep_tool_resolution_witness :
    (∀ p a, DEvent.launch p a ∈ runDeepEdit dwNoExe → p = deepToolPath dwNoExe) ∧
    (dwNoExe.exeExists = false →
      runDeepEdit dwNoExe = [DEvent.log DeepLine.excNote, DEvent.finished false ""] ∧
      ∀ p a, DEvent.launch p a ∉ runDeepEdit dwNoExe) :=
  c10_deep_tool_resolution dwNoExe

end Netfree
